import Mathlib

/-!
# Verification of the knot-diagram construction pipeline

Shallow embedding of the PD-code knot-diagram generator: the connectivity
graph builder (`build_graph`), the circular crossing layout
(`calculate_positions`), the greedy arc traversal (`trace_path`), the
arc-to-position lookup (`get_arc_position`) and the renderer's point
sequence (`draw_points`), the shipped dataset (`KNOT_DEFINITIONS`) and the
pair generator (`generate_knot_pair`).

Modelling conventions:
* A networkx `Graph` is modelled by `NXGraph`: the node list in iteration
  order together with the full edge-insertion list.  Adjacency iteration
  order (`G.neighbors`) is recovered by scanning the edge-insertion list
  and keeping the first occurrence of each neighbor — exactly the order in
  which networkx's adjacency dict acquires its keys.  Duplicate
  `add_edge` calls keep no multiplicity, matching a simple graph.
* The node list `list(G.nodes())` comes from `add_nodes_from(all_arcs)`
  where `all_arcs` is a Python set of small consecutive positive ints; for
  such keys CPython set iteration is first-insertion (ascending) order,
  which `dedupKeepFirst` of the concatenated PD code reproduces.
* Python code that can raise (indexing a short tuple, starting the walk on
  an empty graph) is modelled with `Option`.
* A layout position is stored in exact polar form `(c, r) : ℚ × ℚ`,
  denoting the Cartesian point `(r * cos (c * π), r * sin (c * π))`; the
  float pair computed by the source is the rounding of that point.
-/

namespace KnotQuiz

/-- A crossing of a PD code: the source stores a tuple of arc identifiers
and indexes positions `0..3`; a list of naturals models it (also tuples of
the wrong arity, which the error-handling claims are about). -/
abbrev Crossing := List Nat

/-- Deduplication keeping the first occurrence, with an accumulator of the
elements already seen. -/
def dedupKeepFirstAux {α : Type} [DecidableEq α] : List α → List α → List α
  | [], _ => []
  | x :: xs, seen =>
    if x ∈ seen then dedupKeepFirstAux xs seen
    else x :: dedupKeepFirstAux xs (x :: seen)

/-- Deduplication keeping the first occurrence of each element. -/
def dedupKeepFirst {α : Type} [DecidableEq α] (l : List α) : List α :=
  dedupKeepFirstAux l []

/-- The embedding of a networkx undirected graph: node iteration order and
the edge-insertion list (duplicates kept in the list; all derived queries
collapse them, as a simple graph does). -/
structure NXGraph where
  nodes : List Nat
  edges : List (Nat × Nat)
deriving DecidableEq, Repr

/-- Neighbor iteration order of `u`: scan the edge-insertion list, take the
opposite endpoint of each edge at `u`, keep first occurrences.  This is the
key-insertion order of networkx's adjacency dict at `u`. -/
def NXGraph.neighbors (g : NXGraph) (u : Nat) : List Nat :=
  dedupKeepFirst (g.edges.filterMap fun p =>
    if p.1 = u then some p.2 else if p.2 = u then some p.1 else none)

/-- Undirected edge membership, ignoring multiplicity. -/
def NXGraph.hasEdge (g : NXGraph) (u v : Nat) : Bool :=
  g.edges.any fun p => (p.1 = u && p.2 = v) || (p.1 = v && p.2 = u)

/-- The six `add_edge` calls of `build_graph` for one crossing: the cyclic
quad `(a,b) (b,c) (c,d) (d,a)` and the diagonals `(a,c) (b,d)`.  Indexing
`cross[0] .. cross[3]` on a tuple shorter than 4 raises `IndexError`,
hence `none`; longer tuples use their first four entries. -/
def crossingEdges (c : Crossing) : Option (List (Nat × Nat)) :=
  match c.get? 0, c.get? 1, c.get? 2, c.get? 3 with
  | some a, some b, some c2, some d =>
      some [(a, b), (b, c2), (c2, d), (d, a), (a, c2), (b, d)]
  | _, _, _, _ => none

/-- The `all_arcs` set of `build_graph` in node-iteration order (see the
module comment for why first-insertion order models the Python set). -/
def allArcs (pd : List Crossing) : List Nat := dedupKeepFirst pd.flatten

/-- The edge-insertion list of `build_graph`: six edges per crossing, in PD
order; `none` when some crossing raises `IndexError`. -/
def buildEdges : List Crossing → Option (List (Nat × Nat))
  | [] => some []
  | c :: pd =>
    match crossingEdges c, buildEdges pd with
    | some es, some rest => some (es ++ rest)
    | _, _ => none

/-- `Knot.build_graph`: nodes are all arc identifiers of the PD code, edges
are the six per-crossing connections. -/
def build_graph (pd : List Crossing) : Option NXGraph :=
  (buildEdges pd).map fun es => ⟨allArcs pd, es⟩

/-- `Knot.calculate_positions`: `np.linspace(0, 2π, n, endpoint=False)`
gives angle `i·(2π/n)` to crossing `i`; the position is the polar pair
`(2·i/n, 3/2)` denoting `(3/2 · cos(2·i/n · π), 3/2 · sin(2·i/n · π))`. -/
def calculate_positions (n : Nat) : List (ℚ × ℚ) :=
  (List.range n).map fun (i : Nat) => ((2 * (i : ℚ)) / (n : ℚ), 3 / 2)

/-- One step of `Knot.trace_path`'s while loop, with fuel: move to the
first not-yet-visited neighbor of `current`, append it to the path (the
visited set always equals the set of path entries), stop when none is
left.  The fuel only bounds the recursion; `trace_path` passes enough that
the loop always stops on its own. -/
def greedyWalk (g : NXGraph) : Nat → Nat → List Nat → List Nat
  | 0, _, path => path
  | fuel + 1, current, path =>
    match (g.neighbors current).filter (fun x => !decide (x ∈ path)) with
    | [] => path
    | next :: _ => greedyWalk g fuel next (path ++ [next])

/-- `Knot.trace_path`: start from the first node (`IndexError`, hence
`none`, on an empty graph), run the greedy walk, and append the start node
again when it is a neighbor of the last node reached. -/
def trace_path (g : NXGraph) : Option (List Nat) :=
  match g.nodes with
  | [] => none
  | s :: _ =>
    let walk := greedyWalk g g.nodes.length s [s]
    if walk.headI ∈ g.neighbors (walk.getLastD s) then some (walk ++ [walk.headI])
    else some walk

/-- A `Knot` instance: the name, the PD code, and the data derived once at
construction. -/
structure Knot where
  name : String
  pd_code : List Crossing
  crossings : Nat
  graph : NXGraph
  positions : List (ℚ × ℚ)
  path : List Nat
deriving DecidableEq, Repr

/-- `Knot.__init__`: build the graph, lay out the crossings, trace the
path; `none` when construction raises. -/
def mkKnot (name : String) (pd : List Crossing) : Option Knot :=
  match build_graph pd with
  | none => none
  | some g =>
    match trace_path g with
    | none => none
    | some p => some ⟨name, pd, pd.length, g, calculate_positions pd.length, p⟩

/-- The index scan of `Knot.get_arc_position`: `for i, cross in
enumerate(self.pd_code): if arc in cross: return self.positions[i]`,
with the running index made explicit. -/
def firstIdxFrom (p : Crossing → Bool) : List Crossing → Nat → Option Nat
  | [], _ => none
  | c :: pd, i => if p c then some i else firstIdxFrom p pd (i + 1)

/-- `Knot.get_arc_position`: the position of the first crossing containing
the arc, `None` when the arc appears in no crossing. -/
def get_arc_position (k : Knot) (arc : Nat) : Option (ℚ × ℚ) :=
  match firstIdxFrom (fun c => decide (arc ∈ c)) k.pd_code 0 with
  | some i => k.positions.get? i
  | none => none

/-- The point sequence built by `Knot.draw`: walk the path, append the
position of each arc that has one, skip the arcs that do not (a position
pair is always truthy in Python, so `if pos:` tests exactly `≠ None`;
appending `(get_arc_position k arc).toList` appends `[pos]` when the
lookup yields `pos` and nothing when it yields `None`). -/
def draw_points (k : Knot) : List (ℚ × ℚ) :=
  k.path.foldl (fun pts arc => pts ++ (get_arc_position k arc).toList) []

/-- The shipped dataset `KNOT_DEFINITIONS`, in source order. -/
def KNOT_DEFINITIONS : List (String × List Crossing) :=
  [ ("Unknot", [[1, 2, 3, 4]]),
    ("Trefoil", [[1, 2, 3, 4], [5, 6, 7, 8], [9, 10, 11, 12]]),
    ("FigureEight", [[1, 2, 3, 4], [5, 6, 7, 8], [9, 10, 11, 12],
      [13, 14, 15, 16]]),
    ("Cinquefoil", [[1, 2, 3, 4], [5, 6, 7, 8], [9, 10, 11, 12],
      [13, 14, 15, 16], [17, 18, 19, 20]]),
    ("6₁", [[1, 2, 3, 4], [5, 6, 7, 8], [9, 10, 11, 12],
      [13, 14, 15, 16], [17, 18, 19, 20], [21, 22, 23, 24]]),
    ("7₄", [[1, 2, 3, 4], [5, 6, 7, 8], [9, 10, 11, 12],
      [13, 14, 15, 16], [17, 18, 19, 20], [21, 22, 23, 24],
      [25, 26, 27, 28]]),
    ("8₁₉", [[1, 2, 3, 4], [5, 6, 7, 8], [9, 10, 11, 12],
      [13, 14, 15, 16], [17, 18, 19, 20], [21, 22, 23, 24],
      [25, 26, 27, 28], [29, 30, 31, 32]]),
    ("9₄₂", [[1, 2, 3, 4], [5, 6, 7, 8], [9, 10, 11, 12],
      [13, 14, 15, 16], [17, 18, 19, 20], [21, 22, 23, 24],
      [25, 26, 27, 28], [29, 30, 31, 32], [33, 34, 35, 36]]),
    ("10₁₆₁", [[1, 2, 3, 4], [5, 6, 7, 8], [9, 10, 11, 12],
      [13, 14, 15, 16], [17, 18, 19, 20], [21, 22, 23, 24],
      [25, 26, 27, 28], [29, 30, 31, 32], [33, 34, 35, 36],
      [37, 38, 39, 40]]) ]

/-- Dataset lookup `KNOT_DEFINITIONS[name]` (always found for names drawn
from the key list). -/
def pdOf (name : String) : List Crossing :=
  (KNOT_DEFINITIONS.lookup name).getD []

/-- The candidate names of `generate_knot_pair`: the dataset keys with the
first occurrence of `"Unknot"` removed (`list.remove`). -/
def knot_types : List String := (KNOT_DEFINITIONS.map Prod.fst).erase "Unknot"

/-- `generate_knot_pair`, with the random draws made explicit: `equivalent`
is the coin flip, and `i`, `j` index into `knot_types` (the equivalent
branch uses only `i`; the non-equivalent branch models
`random.sample(knot_types, 2)`, which never repeats an index, so equal
indices are not a reachable outcome). -/
def generate_knot_pair (equivalent : Bool) (i j : Nat) :
    Option (Knot × Knot × Bool) :=
  if equivalent then
    match knot_types[i]? with
    | none => none
    | some name =>
      match mkKnot name (pdOf name), mkKnot name (pdOf name) with
      | some k1, some k2 => some (k1, k2, true)
      | _, _ => none
  else
    match knot_types[i]?, knot_types[j]? with
    | some n1, some n2 =>
      if i = j then none
      else
        match mkKnot n1 (pdOf n1), mkKnot n2 (pdOf n2) with
        | some k1, some k2 => some (k1, k2, false)
        | _, _ => none
    | _, _ => none

/-- The unordered-pair normal form of an edge, used to count distinct
edges of the simple graph. -/
def normPair (p : Nat × Nat) : Nat × Nat :=
  if p.1 ≤ p.2 then p else (p.2, p.1)

/-- The empty graph, the default of `gOf`. -/
def defaultGraph : NXGraph := ⟨[], []⟩

/-- The graph built from a PD code, defaulted (used only at PD codes where
`build_graph` is proved to succeed). -/
def gOf (pd : List Crossing) : NXGraph := (build_graph pd).getD defaultGraph

/-- A default knot, the default of `knotOf`. -/
def defaultKnot : Knot := ⟨"", [], 0, defaultGraph, [], []⟩

/-- The knot built from a name and PD code, defaulted (used only where
`mkKnot` is proved to succeed). -/
def knotOf (name : String) (pd : List Crossing) : Knot :=
  (mkKnot name pd).getD defaultKnot

/-- A Boolean witness that `A` disconnects `g`: some node lies in `A`,
some node lies outside `A`, and no edge crosses the cut — the standard
characterization of a disconnected graph by a nontrivial cut with no
crossing edges. -/
def NXGraph.disconnWitness (g : NXGraph) (A : List Nat) : Bool :=
  decide (∃ a ∈ g.nodes, a ∈ A) && decide (∃ b ∈ g.nodes, b ∉ A) &&
  g.edges.all fun p => decide (p.1 ∈ A) == decide (p.2 ∈ A)

/-! ## Basic lemmas about the deduplication helper -/

theorem mem_dedupKeepFirstAux {α : Type} [DecidableEq α] (x : α) :
    ∀ (l seen : List α), x ∈ dedupKeepFirstAux l seen ↔ x ∈ l ∧ x ∉ seen := by
  intro l
  induction l with
  | nil => intro seen; simp [dedupKeepFirstAux]
  | cons y ys ih =>
    intro seen
    by_cases hy : y ∈ seen
    · simp only [dedupKeepFirstAux, if_pos hy, ih, List.mem_cons]
      constructor
      · rintro ⟨h1, h2⟩; exact ⟨Or.inr h1, h2⟩
      · rintro ⟨h1 | h1, h2⟩
        · exact absurd (h1 ▸ hy) h2
        · exact ⟨h1, h2⟩
    · simp only [dedupKeepFirstAux, if_neg hy, List.mem_cons, ih]
      constructor
      · rintro (rfl | ⟨h1, h2⟩)
        · exact ⟨Or.inl rfl, hy⟩
        · exact ⟨Or.inr h1, fun hx => h2 (Or.inr hx)⟩
      · rintro ⟨rfl | h1, h2⟩
        · exact Or.inl rfl
        · by_cases hxy : x = y
          · exact Or.inl hxy
          · exact Or.inr ⟨h1, fun hx => by
              rcases hx with h | h
              · exact hxy h
              · exact h2 h⟩

theorem mem_dedupKeepFirst {α : Type} [DecidableEq α] (x : α) (l : List α) :
    x ∈ dedupKeepFirst l ↔ x ∈ l := by
  simp [dedupKeepFirst, mem_dedupKeepFirstAux]

theorem nodup_dedupKeepFirstAux {α : Type} [DecidableEq α] :
    ∀ (l seen : List α), (dedupKeepFirstAux l seen).Nodup := by
  intro l
  induction l with
  | nil => intro seen; simp [dedupKeepFirstAux]
  | cons y ys ih =>
    intro seen
    by_cases hy : y ∈ seen
    · simpa [dedupKeepFirstAux, if_pos hy] using ih seen
    · simp only [dedupKeepFirstAux, if_neg hy, List.nodup_cons]
      refine ⟨fun hmem => ?_, ih (y :: seen)⟩
      rcases (mem_dedupKeepFirstAux y ys (y :: seen)).mp hmem with ⟨_, h2⟩
      exact h2 (List.mem_cons_self y seen)

theorem nodup_dedupKeepFirst {α : Type} [DecidableEq α] (l : List α) :
    (dedupKeepFirst l).Nodup :=
  nodup_dedupKeepFirstAux l []

theorem length_dedupKeepFirstAux_le {α : Type} [DecidableEq α] :
    ∀ (l seen : List α), (dedupKeepFirstAux l seen).length ≤ l.length := by
  intro l
  induction l with
  | nil => intro seen; simp [dedupKeepFirstAux]
  | cons y ys ih =>
    intro seen
    by_cases hy : y ∈ seen
    · simp only [dedupKeepFirstAux, if_pos hy, List.length_cons]
      exact Nat.le_succ_of_le (ih seen)
    · simp only [dedupKeepFirstAux, if_neg hy, List.length_cons]
      exact Nat.succ_le_succ (ih (y :: seen))

theorem length_dedupKeepFirst_le {α : Type} [DecidableEq α] (l : List α) :
    (dedupKeepFirst l).length ≤ l.length :=
  length_dedupKeepFirstAux_le l []

/-! ## Lemmas about graph queries -/

theorem mem_allArcs (pd : List Crossing) (v : Nat) :
    v ∈ allArcs pd ↔ ∃ c ∈ pd, v ∈ c := by
  simp [allArcs, mem_dedupKeepFirst, List.mem_flatten]

theorem nodup_allArcs (pd : List Crossing) : (allArcs pd).Nodup :=
  nodup_dedupKeepFirst pd.flatten

/-- Characterization of `hasEdge` by the edge-insertion list. -/
theorem hasEdge_iff (g : NXGraph) (u v : Nat) :
    g.hasEdge u v = true ↔
      ∃ p ∈ g.edges, (p.1 = u ∧ p.2 = v) ∨ (p.1 = v ∧ p.2 = u) := by
  simp [NXGraph.hasEdge, List.any_eq_true]

/-- Membership in the neighbor iteration list agrees with edge
membership. -/
theorem mem_neighbors (g : NXGraph) (u v : Nat) :
    v ∈ g.neighbors u ↔ g.hasEdge u v = true := by
  rw [hasEdge_iff]
  simp only [NXGraph.neighbors, mem_dedupKeepFirst, List.mem_filterMap]
  constructor
  · rintro ⟨p, hp, hfp⟩
    by_cases h1 : p.1 = u
    · simp only [if_pos h1] at hfp
      exact ⟨p, hp, Or.inl ⟨h1, Option.some_injective _ hfp⟩⟩
    · simp only [if_neg h1] at hfp
      by_cases h2 : p.2 = u
      · simp only [if_pos h2] at hfp
        exact ⟨p, hp, Or.inr ⟨Option.some_injective _ hfp, h2⟩⟩
      · simp [if_neg h2] at hfp
  · rintro ⟨p, hp, ⟨h1, h2⟩ | ⟨h1, h2⟩⟩
    · exact ⟨p, hp, by simp [h1, h2]⟩
    · refine ⟨p, hp, ?_⟩
      by_cases hq : p.1 = u
      · simp only [if_pos hq]
        rw [h2, ← hq, h1]
      · rw [if_neg hq, if_pos h2, h1]

theorem nodup_neighbors (g : NXGraph) (u : Nat) : (g.neighbors u).Nodup :=
  nodup_dedupKeepFirst _

/-- `hasEdge` is symmetric, as for an undirected graph. -/
theorem hasEdge_symm (g : NXGraph) (u v : Nat) :
    g.hasEdge u v = g.hasEdge v u := by
  rcases h1 : g.hasEdge u v with _ | _ <;> rcases h2 : g.hasEdge v u with _ | _
  · rfl
  · rcases (hasEdge_iff g v u).mp h2 with ⟨p, hp, hcase⟩
    have h3 : g.hasEdge u v = true :=
      (hasEdge_iff g u v).mpr ⟨p, hp, hcase.symm⟩
    rw [h1] at h3
    exact h3
  · rcases (hasEdge_iff g u v).mp h1 with ⟨p, hp, hcase⟩
    have h3 : g.hasEdge v u = true :=
      (hasEdge_iff g v u).mpr ⟨p, hp, hcase.symm⟩
    rw [h2] at h3
    exact h3.symm
  · rfl

/-! ## Structural lemmas about the graph builder -/

/-- A list of length four is literally a four-element list. -/
theorem length_four_eq (c : List Nat) (h : c.length = 4) :
    ∃ a b u v, c = [a, b, u, v] := by
  match c with
  | [a, b, u, v] => exact ⟨a, b, u, v, rfl⟩
  | [] => simp at h
  | [_] => simp at h
  | [_, _] => simp at h
  | [_, _, _] => simp at h
  | _ :: _ :: _ :: _ :: _ :: _ =>
    simp only [List.length_cons] at h
    omega

/-- `crossingEdges` on an explicit four-tuple. -/
theorem crossingEdges_four (a b c2 d : Nat) :
    crossingEdges [a, b, c2, d] =
      some [(a, b), (b, c2), (c2, d), (d, a), (a, c2), (b, d)] := rfl

/-- The crossing indexing fails exactly on tuples shorter than four. -/
theorem crossingEdges_eq_none_iff (c : Crossing) :
    crossingEdges c = none ↔ c.length < 4 := by
  match c with
  | [] => simp [crossingEdges]
  | [_] => simp [crossingEdges]
  | [_, _] => simp [crossingEdges]
  | [_, _, _] => simp [crossingEdges]
  | a :: b :: u :: v :: rest =>
    simp only [crossingEdges, List.get?, List.length_cons]
    constructor
    · intro h; cases h
    · intro h; omega

/-- `buildEdges` fails exactly when some crossing is shorter than four. -/
theorem buildEdges_eq_none_iff (pd : List Crossing) :
    buildEdges pd = none ↔ ∃ c ∈ pd, c.length < 4 := by
  induction pd with
  | nil => simp [buildEdges]
  | cons c pd ih =>
    simp only [buildEdges, List.mem_cons]
    rcases hc : crossingEdges c with _ | es
    · simp only [true_iff]
      exact ⟨c, Or.inl rfl, (crossingEdges_eq_none_iff c).mp hc⟩
    · rcases he : buildEdges pd with _ | rest
      · simp only [true_iff]
        rcases ih.mp he with ⟨c2, hc2, hlen⟩
        exact ⟨c2, Or.inr hc2, hlen⟩
      · simp only [reduceCtorEq, false_iff]
        rintro ⟨c2, rfl | hc2, hlen⟩
        · rw [(crossingEdges_eq_none_iff c2).mpr hlen] at hc
          cases hc
        · have hn : buildEdges pd = none := ih.mpr ⟨c2, hc2, hlen⟩
          rw [hn] at he
          cases he

/-- Every edge produced by `buildEdges` comes from some crossing of the PD
code. -/
theorem buildEdges_mem (pd : List Crossing) (es : List (Nat × Nat))
    (h : buildEdges pd = some es) :
    ∀ p ∈ es, ∃ c ∈ pd, ∃ l, crossingEdges c = some l ∧ p ∈ l := by
  induction pd generalizing es with
  | nil =>
    simp only [buildEdges, Option.some.injEq] at h
    subst h
    simp
  | cons c pd ih =>
    simp only [buildEdges] at h
    rcases hc : crossingEdges c with _ | l <;> rw [hc] at h
    · cases h
    · rcases he : buildEdges pd with _ | rest <;> rw [he] at h
      · cases h
      · rcases h with ⟨⟩
        intro p hp
        rcases List.mem_append.mp hp with hp | hp
        · exact ⟨c, List.mem_cons_self c pd, l, hc, hp⟩
        · rcases ih rest he p hp with ⟨c2, hc2, l2, hl2, hpl2⟩
          exact ⟨c2, List.mem_cons_of_mem c hc2, l2, hl2, hpl2⟩

/-- The endpoints of a per-crossing edge lie in that crossing. -/
theorem crossingEdges_endpoints (c : Crossing) (l : List (Nat × Nat))
    (h : crossingEdges c = some l) : ∀ p ∈ l, p.1 ∈ c ∧ p.2 ∈ c := by
  match c with
  | [] => simp [crossingEdges] at h
  | [_] => simp [crossingEdges] at h
  | [_, _] => simp [crossingEdges] at h
  | [_, _, _] => simp [crossingEdges] at h
  | a :: b :: u :: v :: rest =>
    simp only [crossingEdges, List.get?, Option.some.injEq] at h
    subst h
    intro p hp
    simp only [List.mem_cons, List.not_mem_nil, or_false] at hp
    rcases hp with hp | hp | hp | hp | hp | hp <;> subst hp <;> simp

/-- In a built graph, every edge endpoint is a node. -/
theorem built_edges_endpoints (pd : List Crossing) (g : NXGraph)
    (hg : build_graph pd = some g) :
    ∀ p ∈ g.edges, p.1 ∈ g.nodes ∧ p.2 ∈ g.nodes := by
  unfold build_graph at hg
  rcases he : buildEdges pd with _ | es <;> rw [he] at hg
  · cases hg
  · rcases hg with ⟨⟩
    intro p hp
    rcases buildEdges_mem pd es he p hp with ⟨c, hc, l, hl, hpl⟩
    rcases crossingEdges_endpoints c l hl p hpl with ⟨h1, h2⟩
    constructor
    · exact (mem_allArcs pd p.1).mpr ⟨c, hc, h1⟩
    · exact (mem_allArcs pd p.2).mpr ⟨c, hc, h2⟩

/-- In a built graph, neighbors are nodes. -/
theorem built_neighbors_mem_nodes (pd : List Crossing) (g : NXGraph)
    (hg : build_graph pd = some g) (u v : Nat) (hv : v ∈ g.neighbors u) :
    v ∈ g.nodes := by
  rcases (hasEdge_iff g u v).mp ((mem_neighbors g u v).mp hv) with ⟨p, hp, hc⟩
  rcases built_edges_endpoints pd g hg p hp with ⟨h1, h2⟩
  rcases hc with ⟨_, h⟩ | ⟨h, _⟩
  · exact h ▸ h2
  · exact h ▸ h1

/-- The node list of a built graph and its success value. -/
theorem build_graph_eq (pd : List Crossing) (g : NXGraph)
    (hg : build_graph pd = some g) :
    g.nodes = allArcs pd ∧ buildEdges pd = some g.edges := by
  unfold build_graph at hg
  rcases he : buildEdges pd with _ | es <;> rw [he] at hg
  · cases hg
  · rcases hg with ⟨⟩
    exact ⟨rfl, rfl⟩

/-! ## The greedy walk: invariants, fuel adequacy, and the traced path -/

/-- The edge relation used to state path validity. -/
def edgeRel (g : NXGraph) (a b : Nat) : Prop := g.hasEdge a b = true

theorem greedyWalk_zero (g : NXGraph) (current : Nat) (path : List Nat) :
    greedyWalk g 0 current path = path := rfl

theorem greedyWalk_succ (g : NXGraph) (fuel current : Nat) (path : List Nat) :
    greedyWalk g (fuel + 1) current path =
      match (g.neighbors current).filter (fun x => !decide (x ∈ path)) with
      | [] => path
      | next :: _ => greedyWalk g fuel next (path ++ [next]) := rfl

/-- The main invariant of the while loop: starting from a nonduplicated
path that ends at `current` and whose consecutive entries are edges, the
walk extends the path keeping all of that, never changes the head, and
only adds nodes that are neighbors of something. -/
theorem greedyWalk_invariant (g : NXGraph) :
    ∀ (fuel current : Nat) (path : List Nat),
      path ≠ [] → path.getLast? = some current → path.Nodup →
      List.Chain' (edgeRel g) path →
      greedyWalk g fuel current path ≠ [] ∧
      (greedyWalk g fuel current path).headI = path.headI ∧
      (greedyWalk g fuel current path).Nodup ∧
      List.Chain' (edgeRel g) (greedyWalk g fuel current path) ∧
      path.length ≤ (greedyWalk g fuel current path).length ∧
      (∀ x ∈ greedyWalk g fuel current path,
        x ∈ path ∨ ∃ u, x ∈ g.neighbors u) := by
  intro fuel
  induction fuel with
  | zero =>
    intro current path h1 _ h3 h4
    rw [greedyWalk_zero]
    exact ⟨h1, rfl, h3, h4, Nat.le_refl _, fun x hx => Or.inl hx⟩
  | succ n ih =>
    intro current path h1 h2 h3 h4
    rw [greedyWalk_succ]
    rcases hf : (g.neighbors current).filter (fun x => !decide (x ∈ path)) with
      _ | ⟨next, rest⟩
    · exact ⟨h1, rfl, h3, h4, Nat.le_refl _, fun x hx => Or.inl hx⟩
    · have hnext : next ∈ (g.neighbors current).filter
          (fun x => !decide (x ∈ path)) := by
        rw [hf]; exact List.mem_cons_self next rest
      have hmem : next ∈ g.neighbors current ∧ next ∉ path := by
        have h := List.mem_filter.mp hnext
        refine ⟨h.1, ?_⟩
        have := h.2
        simpa using this
      have hne : path ++ [next] ≠ [] := by simp
      have hlast : (path ++ [next]).getLast? = some next := by
        simp [List.getLast?_concat]
      have hnodup : (path ++ [next]).Nodup := by
        rw [List.nodup_append]
        exact ⟨h3, List.nodup_singleton next,
          fun a ha hb => by
            rcases List.mem_singleton.mp hb with rfl
            exact hmem.2 ha⟩
      have hcurrent_last : path.getLast? = some current := h2
      have hchain : List.Chain' (edgeRel g) (path ++ [next]) := by
        refine List.Chain'.append h4 (List.chain'_singleton next) ?_
        intro x hx y hy
        rcases List.mem_singleton.mp (by simpa using hy)
        rw [hcurrent_last] at hx
        rcases List.mem_singleton.mp (by simpa using hx)
        exact (mem_neighbors g current next).mp hmem.1
      rcases ih next (path ++ [next]) hne hlast hnodup hchain with
        ⟨g1, g2, g3, g4, g5, g6⟩
      refine ⟨g1, ?_, g3, g4, ?_, ?_⟩
      · rw [g2]
        rcases path with _ | ⟨p, ps⟩
        · exact absurd rfl h1
        · rfl
      · calc path.length ≤ (path ++ [next]).length := by simp
          _ ≤ _ := g5
      · intro x hx
        rcases g6 x hx with hx2 | hx2
        · rcases List.mem_append.mp hx2 with hx3 | hx3
          · exact Or.inl hx3
          · rcases List.mem_singleton.mp hx3 with rfl
            exact Or.inr ⟨current, hmem.1⟩
        · exact Or.inr hx2

/-- Fuel adequacy: with fuel at least the node count (minus the path
already laid down), the walk stops because the current node has no
unvisited neighbor — never because the fuel runs out.  Uses that every
neighbor is a node, which holds for every built graph. -/
theorem greedyWalk_stops (g : NXGraph)
    (hNB : ∀ u x, x ∈ g.neighbors u → x ∈ g.nodes) :
    ∀ (fuel current : Nat) (path : List Nat),
      path.getLast? = some current → path.Nodup →
      (∀ x ∈ path, x ∈ g.nodes) →
      g.nodes.length < fuel + path.length →
      (g.neighbors ((greedyWalk g fuel current path).getLastD 0)).filter
        (fun x => !decide (x ∈ greedyWalk g fuel current path)) = [] := by
  intro fuel
  induction fuel with
  | zero =>
    intro current path _ hnodup hsub hlen
    have hle : path.length ≤ g.nodes.length :=
      List.Subperm.length_le (List.Nodup.subperm hnodup hsub)
    omega
  | succ n ih =>
    intro current path hlast hnodup hsub hlen
    rw [greedyWalk_succ]
    rcases hf : (g.neighbors current).filter (fun x => !decide (x ∈ path)) with
      _ | ⟨next, rest⟩
    · have hpne : path ≠ [] := by
        intro h; rw [h] at hlast; cases hlast
      have hgl : path.getLastD 0 = current := by
        rw [List.getLastD_eq_getLast?, hlast]
        rfl
      rw [hgl]
      exact hf
    · have hnext : next ∈ (g.neighbors current).filter
          (fun x => !decide (x ∈ path)) := by
        rw [hf]; exact List.mem_cons_self next rest
      have hmem : next ∈ g.neighbors current ∧ next ∉ path := by
        have h := List.mem_filter.mp hnext
        exact ⟨h.1, by simpa using h.2⟩
      have hlast2 : (path ++ [next]).getLast? = some next := by
        simp [List.getLast?_concat]
      have hnodup2 : (path ++ [next]).Nodup := by
        rw [List.nodup_append]
        exact ⟨hnodup, List.nodup_singleton next,
          fun a ha hb => by
            rcases List.mem_singleton.mp hb with rfl
            exact hmem.2 ha⟩
      have hsub2 : ∀ x ∈ path ++ [next], x ∈ g.nodes := by
        intro x hx
        rcases List.mem_append.mp hx with hx | hx
        · exact hsub x hx
        · have hx2 := List.mem_singleton.mp hx
          rw [hx2]
          exact hNB current next hmem.1
      have hlen2 : g.nodes.length < n + (path ++ [next]).length := by
        simp only [List.length_append, List.length_singleton]
        omega
      exact ih next (path ++ [next]) hlast2 hnodup2 hsub2 hlen2

theorem getLastD_eq_of_ne_nil {l : List Nat} (h : l ≠ []) (a b : Nat) :
    l.getLastD a = l.getLastD b := by
  rw [List.getLastD_eq_getLast?, List.getLastD_eq_getLast?]
  rcases h2 : l.getLast? with _ | y
  · rw [List.getLast?_eq_none_iff] at h2
    exact absurd h2 h
  · rfl

/-- Unfolding of `trace_path` on a successful run. -/
theorem trace_path_eq (g : NXGraph) (p : List Nat)
    (hp : trace_path g = some p) :
    ∃ s rest, g.nodes = s :: rest ∧
      ((greedyWalk g g.nodes.length s [s]).headI ∈
          g.neighbors ((greedyWalk g g.nodes.length s [s]).getLastD s) ∧
        p = greedyWalk g g.nodes.length s [s] ++
          [(greedyWalk g g.nodes.length s [s]).headI] ∨
       (greedyWalk g g.nodes.length s [s]).headI ∉
          g.neighbors ((greedyWalk g g.nodes.length s [s]).getLastD s) ∧
        p = greedyWalk g g.nodes.length s [s]) := by
  unfold trace_path at hp
  split at hp
  · cases hp
  case h_2 s tail heq =>
    refine ⟨s, tail, heq, ?_⟩
    simp only at hp
    split at hp
    case isTrue hc =>
      rcases hp with ⟨⟩
      exact Or.inl ⟨hc, rfl⟩
    case isFalse hc =>
      rcases hp with ⟨⟩
      exact Or.inr ⟨hc, rfl⟩

/-- C1. For every connectivity graph produced by the graph builder, the
arc path returned by the traversal engine is a duplicate-free walk `w`
whose consecutive entries are edges of the graph, followed by a repeat of
the first entry exactly when the first arc is a graph-neighbor of the
last arc reached by the greedy walk. -/
theorem trace_path_valid (pd : List Crossing) (g : NXGraph) (p : List Nat)
    (_hg : build_graph pd = some g) (hp : trace_path g = some p) :
    ∃ w : List Nat, w ≠ [] ∧ w.Nodup ∧ List.Chain' (edgeRel g) w ∧
      ((g.hasEdge (w.getLastD 0) w.headI = true ∧ p = w ++ [w.headI]) ∨
       (g.hasEdge (w.getLastD 0) w.headI = false ∧ p = w)) := by
  rcases trace_path_eq g p hp with ⟨s, rest, hn, hcase⟩
  rcases greedyWalk_invariant g g.nodes.length s [s] (by simp) (by simp)
      (List.nodup_singleton s) (List.chain'_singleton s) with
    ⟨w1, _, w3, w4, _, _⟩
  refine ⟨greedyWalk g g.nodes.length s [s], w1, w3, w4, ?_⟩
  have hD : (greedyWalk g g.nodes.length s [s]).getLastD s =
      (greedyWalk g g.nodes.length s [s]).getLastD 0 :=
    getLastD_eq_of_ne_nil w1 s 0
  rcases hcase with ⟨hc, hpw⟩ | ⟨hc, hpw⟩
  · rw [hD] at hc
    exact Or.inl ⟨(mem_neighbors g _ _).mp hc, hpw⟩
  · rw [hD] at hc
    refine Or.inr ⟨?_, hpw⟩
    rcases hb : (g.hasEdge ((greedyWalk g g.nodes.length s [s]).getLastD 0)
        (greedyWalk g g.nodes.length s [s]).headI) with _ | _
    · rfl
    · exact absurd ((mem_neighbors g _ _).mpr hb) hc

/-- Witness for C1 at the Unknot PD code `[(1,2,3,4)]`. -/
theorem trace_path_valid_witness :
    ∃ w : List Nat, w ≠ [] ∧ w.Nodup ∧
      List.Chain' (edgeRel ⟨[1, 2, 3, 4],
        [(1, 2), (2, 3), (3, 4), (4, 1), (1, 3), (2, 4)]⟩) w ∧
      ((NXGraph.hasEdge ⟨[1, 2, 3, 4],
          [(1, 2), (2, 3), (3, 4), (4, 1), (1, 3), (2, 4)]⟩
            (w.getLastD 0) w.headI = true ∧
          [1, 2, 3, 4, 1] = w ++ [w.headI]) ∨
       (NXGraph.hasEdge ⟨[1, 2, 3, 4],
          [(1, 2), (2, 3), (3, 4), (4, 1), (1, 3), (2, 4)]⟩
            (w.getLastD 0) w.headI = false ∧
          [1, 2, 3, 4, 1] = w)) :=
  trace_path_valid [[1, 2, 3, 4]]
    ⟨[1, 2, 3, 4], [(1, 2), (2, 3), (3, 4), (4, 1), (1, 3), (2, 4)]⟩
    [1, 2, 3, 4, 1] (by decide) (by decide)

/-- C8. The traversal terminates on every built graph with the walk
stopped for want of an unvisited neighbor (not for want of fuel), the
walk has at most as many entries as the graph has nodes, the final path
at most one more; on the single-crossing PD code the traversal stops
after the four arcs and the closing repeat. -/
theorem trace_path_terminates (pd : List Crossing) (g : NXGraph)
    (p : List Nat) (hg : build_graph pd = some g)
    (hp : trace_path g = some p) :
    p.length ≤ g.nodes.length + 1 ∧
    (∃ w : List Nat, (p = w ∨ p = w ++ [w.headI]) ∧
      w.length ≤ g.nodes.length ∧
      (g.neighbors (w.getLastD 0)).filter (fun x => !decide (x ∈ w)) = []) ∧
    trace_path (gOf [[1, 2, 3, 4]]) = some [1, 2, 3, 4, 1] := by
  rcases trace_path_eq g p hp with ⟨s, rest, hn, hcase⟩
  have hs : s ∈ g.nodes := by rw [hn]; exact List.mem_cons_self s rest
  rcases greedyWalk_invariant g g.nodes.length s [s] (by simp) (by simp)
      (List.nodup_singleton s) (List.chain'_singleton s) with
    ⟨w1, _, w3, _, _, w6⟩
  have hsub : ∀ x ∈ greedyWalk g g.nodes.length s [s], x ∈ g.nodes := by
    intro x hx
    rcases w6 x hx with hx2 | ⟨u, hx2⟩
    · rcases List.mem_singleton.mp hx2 with rfl
      exact hs
    · exact built_neighbors_mem_nodes pd g hg u x hx2
  have hwlen : (greedyWalk g g.nodes.length s [s]).length ≤ g.nodes.length :=
    List.Subperm.length_le (List.Nodup.subperm w3 hsub)
  have hstop : (g.neighbors
      ((greedyWalk g g.nodes.length s [s]).getLastD 0)).filter
      (fun x => !decide (x ∈ greedyWalk g g.nodes.length s [s])) = [] := by
    have hNB : ∀ u x, x ∈ g.neighbors u → x ∈ g.nodes :=
      fun u x hx => built_neighbors_mem_nodes pd g hg u x hx
    exact greedyWalk_stops g hNB g.nodes.length s [s] (by simp)
      (List.nodup_singleton s) (by simpa using hs) (by simp)
  refine ⟨?_, ⟨greedyWalk g g.nodes.length s [s], ?_, hwlen, hstop⟩,
    by decide⟩
  · rcases hcase with ⟨_, hpw⟩ | ⟨_, hpw⟩
    · rw [hpw]
      simp only [List.length_append, List.length_singleton]
      omega
    · rw [hpw]
      omega
  · rcases hcase with ⟨_, hpw⟩ | ⟨_, hpw⟩
    · exact Or.inr hpw
    · exact Or.inl hpw

/-- Witness for C8 at the Unknot PD code `[(1,2,3,4)]`. -/
theorem trace_path_terminates_witness :
    ([1, 2, 3, 4, 1] : List Nat).length ≤
      (NXGraph.nodes ⟨[1, 2, 3, 4],
        [(1, 2), (2, 3), (3, 4), (4, 1), (1, 3), (2, 4)]⟩).length + 1 ∧
    (∃ w : List Nat, (([1, 2, 3, 4, 1] : List Nat) = w ∨
        ([1, 2, 3, 4, 1] : List Nat) = w ++ [w.headI]) ∧
      w.length ≤ (NXGraph.nodes ⟨[1, 2, 3, 4],
        [(1, 2), (2, 3), (3, 4), (4, 1), (1, 3), (2, 4)]⟩).length ∧
      (NXGraph.neighbors ⟨[1, 2, 3, 4],
          [(1, 2), (2, 3), (3, 4), (4, 1), (1, 3), (2, 4)]⟩
          (w.getLastD 0)).filter (fun x => !decide (x ∈ w)) = []) ∧
    trace_path (gOf [[1, 2, 3, 4]]) = some [1, 2, 3, 4, 1] :=
  trace_path_terminates [[1, 2, 3, 4]]
    ⟨[1, 2, 3, 4], [(1, 2), (2, 3), (3, 4), (4, 1), (1, 3), (2, 4)]⟩
    [1, 2, 3, 4, 1] (by decide) (by decide)

/-! ## C2 and C3: the edge pattern and the node set of the built graph -/

theorem buildEdges_length (pd : List Crossing) (h4 : ∀ c ∈ pd, c.length = 4) :
    ∃ es, buildEdges pd = some es ∧ es.length = 6 * pd.length := by
  induction pd with
  | nil => exact ⟨[], rfl, rfl⟩
  | cons c pd ih =>
    rcases ih (fun c2 hc2 => h4 c2 (List.mem_cons_of_mem c hc2)) with
      ⟨rest, hrest, hlen⟩
    rcases length_four_eq c (h4 c (List.mem_cons_self c pd)) with
      ⟨a, b, u, v, rfl⟩
    refine ⟨[(a, b), (b, u), (u, v), (v, a), (a, u), (b, v)] ++ rest, ?_, ?_⟩
    · simp only [buildEdges, crossingEdges_four, hrest]
    · simp only [List.length_append, List.length_cons, List.length_nil, hlen]
      omega

/-- With distinct identifiers inside each crossing, no edge is a
self-loop. -/
theorem built_edges_no_loop (pd : List Crossing)
    (h4 : ∀ c ∈ pd, c.length = 4) (hnd : ∀ c ∈ pd, c.Nodup)
    (g : NXGraph) (hg : build_graph pd = some g) :
    ∀ e ∈ g.edges, e.1 ≠ e.2 := by
  intro e he
  obtain ⟨_, hedges⟩ := build_graph_eq pd g hg
  rcases buildEdges_mem pd g.edges hedges e he with ⟨c, hc, l, hl, hel⟩
  rcases length_four_eq c (h4 c hc) with ⟨a, b, u, v, rfl⟩
  have hnd2 := hnd _ hc
  rw [crossingEdges_four] at hl
  rcases hl with ⟨⟩
  simp only [List.nodup_cons, List.mem_cons, List.not_mem_nil, or_false,
    List.nodup_nil, and_true, not_or] at hnd2
  simp only [List.mem_cons, List.not_mem_nil, or_false] at hel
  rcases hel with rfl | rfl | rfl | rfl | rfl | rfl <;> simp <;> tauto

/-- The property verified for C2: for each crossing `(a,b,c,d)` the
builder adds exactly the six edges `(a,b) (b,c) (c,d) (d,a) (a,c) (b,d)`;
the graph is simple (no self-loops, neighbor lists without duplicates)
and its number of distinct edges is at most six per crossing. -/
def SixEdgeSpec (pd : List Crossing) : Prop :=
  (∀ a b u v, crossingEdges [a, b, u, v] =
    some [(a, b), (b, u), (u, v), (v, a), (a, u), (b, v)]) ∧
  ∃ g, build_graph pd = some g ∧
    g.edges.length = 6 * pd.length ∧
    (∀ e ∈ g.edges, e.1 ≠ e.2) ∧
    (∀ u, (g.neighbors u).Nodup) ∧
    (dedupKeepFirst (g.edges.map normPair)).length ≤ 6 * pd.length

/-- C2. Every PD code all of whose crossings are four pairwise-distinct
identifiers builds a simple graph with exactly the six per-crossing
edges and at most `6 · crossings` distinct edges. -/
theorem build_graph_six_edges (pd : List Crossing)
    (h4 : ∀ c ∈ pd, c.length = 4) (hnd : ∀ c ∈ pd, c.Nodup) :
    SixEdgeSpec pd := by
  refine ⟨fun a b u v => crossingEdges_four a b u v, ?_⟩
  rcases buildEdges_length pd h4 with ⟨es, hes, hlen⟩
  refine ⟨⟨allArcs pd, es⟩, ?_, ?_, ?_, ?_, ?_⟩
  · unfold build_graph
    rw [hes]
    rfl
  · exact hlen
  · refine built_edges_no_loop pd h4 hnd _ ?_
    unfold build_graph
    rw [hes]
    rfl
  · exact fun u => nodup_neighbors _ u
  · calc (dedupKeepFirst ((NXGraph.edges ⟨allArcs pd, es⟩).map normPair)).length
        ≤ ((NXGraph.edges ⟨allArcs pd, es⟩).map normPair).length :=
          length_dedupKeepFirst_le _
      _ = 6 * pd.length := by
          simp only [List.length_map]
          exact hlen

/-- Witness for C2 at the Unknot PD code. -/
theorem build_graph_six_edges_witness : SixEdgeSpec [[1, 2, 3, 4]] :=
  build_graph_six_edges [[1, 2, 3, 4]] (by decide) (by decide)

/-- The property verified for C3: the node set of the built graph is
exactly the arc identifiers of the PD code, and on `[(1,2,3,4)]` the
graph is literally nodes `1..4` with the six expected edges. -/
def NodeSetSpec (pd : List Crossing) : Prop :=
  (∃ g, build_graph pd = some g ∧ ∀ v, v ∈ g.nodes ↔ ∃ c ∈ pd, v ∈ c) ∧
  gOf [[1, 2, 3, 4]] =
    ⟨[1, 2, 3, 4], [(1, 2), (2, 3), (3, 4), (4, 1), (1, 3), (2, 4)]⟩ ∧
  dedupKeepFirst ((gOf [[1, 2, 3, 4]]).edges.map normPair) =
    [(1, 2), (2, 3), (3, 4), (1, 4), (1, 3), (2, 4)] ∧
  (∀ u v, (gOf [[1, 2, 3, 4]]).hasEdge u v = true →
    u ∈ (gOf [[1, 2, 3, 4]]).nodes ∧ v ∈ (gOf [[1, 2, 3, 4]]).nodes) ∧
  (∀ u ∈ (gOf [[1, 2, 3, 4]]).nodes, ∀ v ∈ (gOf [[1, 2, 3, 4]]).nodes,
    ((gOf [[1, 2, 3, 4]]).hasEdge u v = true ↔
      normPair (u, v) ∈ [(1, 2), (2, 3), (3, 4), (1, 4), (1, 3), (2, 4)]))

/-- C3. For every valid PD code the node set of the built graph is
exactly the set of arc identifiers of the code; for `[(1,2,3,4)]` the
nodes are exactly `{1,2,3,4}` and the edge set is exactly
`{(1,2),(2,3),(3,4),(4,1),(1,3),(2,4)}`. -/
theorem build_graph_node_set (pd : List Crossing)
    (_hne : pd ≠ []) (h4 : ∀ c ∈ pd, c.length = 4) : NodeSetSpec pd := by
  refine ⟨?_, by decide, by decide, ?_, by decide⟩
  · rcases buildEdges_length pd h4 with ⟨es, hes, _⟩
    refine ⟨⟨allArcs pd, es⟩, ?_, ?_⟩
    · unfold build_graph
      rw [hes]
      rfl
    · intro v
      exact mem_allArcs pd v
  · intro u v huv
    have hg : build_graph [[1, 2, 3, 4]] = some (gOf [[1, 2, 3, 4]]) := by
      decide
    rcases (hasEdge_iff _ u v).mp huv with ⟨p, hp, hc⟩
    rcases built_edges_endpoints _ _ hg p hp with ⟨h1, h2⟩
    rcases hc with ⟨hu, hv⟩ | ⟨hu, hv⟩
    · exact ⟨hu ▸ h1, hv ▸ h2⟩
    · exact ⟨hv ▸ h2, hu ▸ h1⟩

/-- Witness for C3 at the Unknot PD code. -/
theorem build_graph_node_set_witness : NodeSetSpec [[1, 2, 3, 4]] :=
  build_graph_node_set [[1, 2, 3, 4]] (by decide) (by decide)

/-! ## C5: failure behavior on malformed crossing tuples -/

/-- Counterexample to C5 as stated: a five-entry crossing tuple does not
make the builder raise; the diagram is built, the fifth identifier merely
becomes a node with only the first four used for edges. -/
theorem build_graph_long_tuple_counterexample :
    (build_graph [[1, 2, 3, 4, 5]]).isSome = true := by decide

/-- C5 (amended). Building the diagram fails (an uncaught `IndexError`
from `cross[3]`, not a descriptive condition) exactly when some crossing
tuple is shorter than four; tuples longer than four are accepted
silently. -/
theorem build_graph_fails_iff (pd : List Crossing) :
    build_graph pd = none ↔ ∃ c ∈ pd, c.length < 4 := by
  rw [← buildEdges_eq_none_iff]
  unfold build_graph
  cases buildEdges pd <;> simp

/-! ## C7: determinism of knot construction -/

/-- Field values of a successfully constructed knot. -/
theorem mkKnot_fields (name : String) (pd : List Crossing) (k : Knot)
    (h : mkKnot name pd = some k) :
    k.name = name ∧ k.pd_code = pd ∧ k.crossings = pd.length ∧
    k.positions = calculate_positions pd.length := by
  unfold mkKnot at h
  split at h
  · cases h
  split at h
  · cases h
  rcases h with ⟨⟩
  exact ⟨rfl, rfl, rfl, rfl⟩

/-- C7. Constructing two knot instances from the same PD code yields
identical node sets, edge sets, position sequences and traced paths: the
whole construction is deterministic. -/
theorem mkKnot_deterministic (name : String) (pd : List Crossing)
    (k1 k2 : Knot) (h1 : mkKnot name pd = some k1)
    (h2 : mkKnot name pd = some k2) :
    k1.graph.nodes = k2.graph.nodes ∧ k1.graph.edges = k2.graph.edges ∧
    k1.positions = k2.positions ∧ k1.path = k2.path := by
  rw [h1] at h2
  rcases h2 with ⟨⟩
  exact ⟨rfl, rfl, rfl, rfl⟩

/-- Evaluation rule for `mkKnot` given its two fallible components. -/
theorem mkKnot_eval (name : String) (pd : List Crossing) (g : NXGraph)
    (p : List Nat) (hg : build_graph pd = some g)
    (hp : trace_path g = some p) :
    mkKnot name pd =
      some ⟨name, pd, pd.length, g, calculate_positions pd.length, p⟩ := by
  simp only [mkKnot, hg, hp]

theorem calculate_positions_one : calculate_positions 1 = [(0, 3 / 2)] := by
  simp [calculate_positions, List.range_succ]

theorem calculate_positions_three :
    calculate_positions 3 = [(0, 3 / 2), (2 / 3, 3 / 2), (4 / 3, 3 / 2)] := by
  simp only [calculate_positions, List.range_succ, List.map_append,
    List.map_cons, List.map_nil, List.range_zero, List.nil_append]
  norm_num

/-- The Unknot knot instance, as literally computed by `mkKnot`. -/
def unknotK : Knot :=
  ⟨"Unknot", [[1, 2, 3, 4]], 1,
    ⟨[1, 2, 3, 4], [(1, 2), (2, 3), (3, 4), (4, 1), (1, 3), (2, 4)]⟩,
    [(0, 3 / 2)], [1, 2, 3, 4, 1]⟩

theorem mkKnot_unknot : mkKnot "Unknot" [[1, 2, 3, 4]] = some unknotK := by
  rw [mkKnot_eval "Unknot" [[1, 2, 3, 4]]
    ⟨[1, 2, 3, 4], [(1, 2), (2, 3), (3, 4), (4, 1), (1, 3), (2, 4)]⟩
    [1, 2, 3, 4, 1] (by decide) (by decide)]
  simp [unknotK, calculate_positions_one]

/-- Witness for C7 at the Unknot PD code. -/
theorem mkKnot_deterministic_witness :
    unknotK.graph.nodes = unknotK.graph.nodes ∧
    unknotK.graph.edges = unknotK.graph.edges ∧
    unknotK.positions = unknotK.positions ∧
    unknotK.path = unknotK.path :=
  mkKnot_deterministic "Unknot" [[1, 2, 3, 4]] unknotK unknotK
    mkKnot_unknot mkKnot_unknot

/-! ## C4: the circular crossing layout -/

/-- The property verified for C4.  A polar pair `(c, r)` produced by the
layout denotes the Cartesian point `(r·cos(c·π), r·sin(c·π))`: the layout
returns exactly `n` points, point `i` carries angle coefficient `2·i/n`
(that is, angle `i·(2π/n)` counter-clockwise from angle 0) and radius
`3/2`; every denoted point is at Euclidean distance `3/2` from the
origin; for `n = 1` the single point is `(3/2, 0)`, and for `n = 3` the
three points sit at angles `0`, `2π/3` (120°) and `4π/3` (240°). -/
def LayoutSpec (n : Nat) : Prop :=
  (calculate_positions n).length = n ∧
  (∀ i, i < n → (calculate_positions n).getD i (0, 0) =
    ((2 * (i : ℚ)) / (n : ℚ), 3 / 2)) ∧
  (∀ i, i < n → (((2 * (i : ℚ)) / (n : ℚ) : ℚ) : ℝ) * Real.pi =
    (i : ℝ) * (2 * Real.pi / (n : ℝ))) ∧
  (∀ c : ℚ, Real.sqrt (((3 : ℝ) / 2 * Real.cos ((c : ℝ) * Real.pi)) ^ 2 +
    ((3 : ℝ) / 2 * Real.sin ((c : ℝ) * Real.pi)) ^ 2) = 3 / 2) ∧
  (calculate_positions 1 = [(0, 3 / 2)] ∧
    (3 : ℝ) / 2 * Real.cos (((0 : ℚ) : ℝ) * Real.pi) = 3 / 2 ∧
    (3 : ℝ) / 2 * Real.sin (((0 : ℚ) : ℝ) * Real.pi) = 0) ∧
  (calculate_positions 3 = [(0, 3 / 2), (2 / 3, 3 / 2), (4 / 3, 3 / 2)] ∧
    (((2 / 3 : ℚ) : ℝ) * Real.pi = 2 * Real.pi / 3 ∧
     ((4 / 3 : ℚ) : ℝ) * Real.pi = 4 * Real.pi / 3))

/-- C4. For every crossing count `n ≥ 1` the layout engine returns
exactly `n` points, point `i` at angle `i·(2π/n)` counter-clockwise from
angle 0 and at distance `3/2` from the origin; the `n = 1` and `n = 3`
scenarios come out as the spec describes. -/
theorem calculate_positions_spec (n : Nat) (hn : 1 ≤ n) : LayoutSpec n := by
  have hn0 : (n : ℚ) ≠ 0 := Nat.cast_ne_zero.mpr (by omega)
  have hn0R : (n : ℝ) ≠ 0 := Nat.cast_ne_zero.mpr (by omega)
  refine ⟨?_, ?_, ?_, ?_, ?_, ?_⟩
  · simp only [calculate_positions, List.length_map, List.length_range]
  · intro i hi
    simp only [calculate_positions]
    rw [List.getD_eq_getElem?_getD, List.getElem?_map, List.getElem?_range hi]
    rfl
  · intro i hi
    push_cast
    field_simp
    ring
  · intro c
    have key : ((3 : ℝ) / 2 * Real.cos ((c : ℝ) * Real.pi)) ^ 2 +
        ((3 : ℝ) / 2 * Real.sin ((c : ℝ) * Real.pi)) ^ 2 = ((3 : ℝ) / 2) ^ 2 := by
      nlinarith [Real.sin_sq_add_cos_sq ((c : ℝ) * Real.pi)]
    rw [key]
    exact Real.sqrt_sq (by norm_num)
  · refine ⟨calculate_positions_one, ?_, ?_⟩
    · norm_num
    · norm_num
  · refine ⟨calculate_positions_three, ?_, ?_⟩
    · push_cast
      ring
    · push_cast
      ring

/-- Witness for C4 at three crossings (the Trefoil layout). -/
theorem calculate_positions_spec_witness : LayoutSpec 3 :=
  calculate_positions_spec 3 (by norm_num)

/-! ## C6: the arc-to-position lookup and the renderer's point sequence -/

theorem firstIdxFrom_none_iff (p : Crossing → Bool) :
    ∀ (l : List Crossing) (s : Nat),
      firstIdxFrom p l s = none ↔ ∀ c ∈ l, p c = false := by
  intro l
  induction l with
  | nil => intro s; simp [firstIdxFrom]
  | cons c cs ih =>
    intro s
    by_cases hc : p c = true
    · simp [firstIdxFrom, hc]
    · simp only [firstIdxFrom, if_neg hc, List.mem_cons]
      rw [ih (s + 1)]
      constructor
      · rintro h c2 (rfl | hc2)
        · exact Bool.eq_false_iff.mpr hc
        · exact h c2 hc2
      · intro h c2 hc2
        exact h c2 (Or.inr hc2)

theorem firstIdxFrom_some_spec (p : Crossing → Bool) :
    ∀ (l : List Crossing) (s i : Nat), firstIdxFrom p l s = some i →
      s ≤ i ∧ i - s < l.length ∧ p (l.getD (i - s) []) = true ∧
      ∀ j < i - s, p (l.getD j []) = false := by
  intro l
  induction l with
  | nil => intro s i h; cases h
  | cons c cs ih =>
    intro s i h
    by_cases hc : p c = true
    · rw [firstIdxFrom, if_pos hc] at h
      rcases h with ⟨⟩
      refine ⟨Nat.le_refl s, by simp, ?_, ?_⟩
      · simpa using hc
      · intro j hj
        omega
    · rw [firstIdxFrom, if_neg hc] at h
      rcases ih (s + 1) i h with ⟨h1, h2, h3, h4⟩
      refine ⟨by omega, by simp only [List.length_cons]; omega, ?_, ?_⟩
      · have he : i - s = (i - (s + 1)) + 1 := by omega
        rw [he, List.getD_cons_succ]
        exact h3
      · intro j hj
        rcases j with _ | j2
        · simpa [List.getD_cons_zero] using Bool.eq_false_iff.mpr hc
        · rw [List.getD_cons_succ]
          exact h4 j2 (by omega)

/-- Appending-fold form of the renderer's point loop equals `filterMap`. -/
theorem foldl_points_eq_filterMap {α β : Type} (f : α → Option β) :
    ∀ (l : List α) (acc : List β),
      l.foldl (fun pts a => pts ++ (f a).toList) acc =
        acc ++ l.filterMap f := by
  intro l
  induction l with
  | nil => intro acc; simp
  | cons a l ih =>
    intro acc
    rcases hf : f a with _ | b <;>
      simp [List.foldl_cons, hf, ih, List.filterMap_cons]

/-- The property verified for C6: an arc that appears in no crossing has
no position and is skipped by the renderer's point loop; an arc that
appears somewhere is assigned the position of the first crossing (in PD
order) containing it, and that position exists. -/
def ArcPositionSpec (k : Knot) : Prop :=
  (∀ arc : Nat, (∀ c ∈ k.pd_code, arc ∉ c) →
    get_arc_position k arc = none) ∧
  (∀ arc : Nat, (∃ c ∈ k.pd_code, arc ∈ c) →
    ∃ i, i < k.pd_code.length ∧ arc ∈ k.pd_code.getD i [] ∧
      (∀ j < i, arc ∉ k.pd_code.getD j []) ∧
      i < k.positions.length ∧
      get_arc_position k arc = k.positions.get? i) ∧
  draw_points k = k.path.filterMap (get_arc_position k)

/-- C6. For every constructed knot the drawn position of an arc is the
position of the first crossing containing it, arcs in no crossing have
none, and the renderer's point sequence keeps exactly the arcs of the
path that have a position. -/
theorem get_arc_position_spec (name : String) (pd : List Crossing)
    (k : Knot) (hk : mkKnot name pd = some k) : ArcPositionSpec k := by
  obtain ⟨_, hpd, _, hpos⟩ := mkKnot_fields name pd k hk
  refine ⟨?_, ?_, ?_⟩
  · intro arc h
    unfold get_arc_position
    have hnone : firstIdxFrom (fun c => decide (arc ∈ c)) k.pd_code 0 =
        none := by
      rw [firstIdxFrom_none_iff]
      intro c hc
      simpa using h c hc
    rw [hnone]
  · intro arc h
    rcases hfi : firstIdxFrom (fun c => decide (arc ∈ c)) k.pd_code 0 with
      _ | i
    · exfalso
      rw [firstIdxFrom_none_iff] at hfi
      rcases h with ⟨c, hc, harc⟩
      have h2 := hfi c hc
      simp only [decide_eq_false_iff_not] at h2
      exact h2 harc
    · rcases firstIdxFrom_some_spec _ k.pd_code 0 i hfi with ⟨_, h2, h3, h4⟩
      simp only [Nat.sub_zero] at h2 h3 h4
      have hplen : k.positions.length = k.pd_code.length := by
        rw [hpos, hpd]
        simp [calculate_positions]
      refine ⟨i, h2, by simpa using h3, ?_, by omega, ?_⟩
      · intro j hj
        have h5 := h4 j hj
        simpa using h5
      · unfold get_arc_position
        rw [hfi]
  · unfold draw_points
    simpa using foldl_points_eq_filterMap (get_arc_position k) k.path []

/-- Witness for C6 at the Unknot knot instance. -/
theorem get_arc_position_spec_witness : ArcPositionSpec unknotK :=
  get_arc_position_spec "Unknot" [[1, 2, 3, 4]] unknotK mkKnot_unknot

/-! ## C9: the random pair generator -/

/-- The property verified for C9, for a result `r = (knot1, knot2, flag)`
of the pair generator: the flag equals the selected branch; both knots
are built from dataset entries drawn from the Unknot-free candidate
list, each under its own name and from its own PD code; the equivalent
branch yields two knots of the same name built from the identical PD
code, and the non-equivalent branch yields two distinct names. -/
def PairSpec (equivalent : Bool) (r : Knot × Knot × Bool) : Prop :=
  r.2.2 = equivalent ∧
  r.1.name ∈ knot_types ∧ r.2.1.name ∈ knot_types ∧
  r.1.name ≠ "Unknot" ∧ r.2.1.name ≠ "Unknot" ∧
  r.1.pd_code = pdOf r.1.name ∧ r.2.1.pd_code = pdOf r.2.1.name ∧
  (equivalent = true → r.1.name = r.2.1.name ∧
    r.1.pd_code = r.2.1.pd_code) ∧
  (equivalent = false → r.1.name ≠ r.2.1.name)

/-- C9. For every outcome of the random draws, the pair generator
returns knots matching `PairSpec`: the equivalent branch repeats one
name and PD code, the non-equivalent branch draws two distinct names
without replacement from the dataset minus the Unknot, and the flag
reports the branch. -/
theorem generate_knot_pair_spec (equivalent : Bool) (i j : Nat)
    (r : Knot × Knot × Bool)
    (h : generate_knot_pair equivalent i j = some r) :
    PairSpec equivalent r := by
  have hUn : "Unknot" ∉ knot_types := by decide
  have hnd : knot_types.Nodup := by decide
  unfold generate_knot_pair at h
  split at h
  case isTrue heq =>
    subst heq
    split at h
    · cases h
    next name hi =>
      split at h
      next k1 k2 hm1 hm2 =>
        rcases h with ⟨⟩
        have hk12 : k1 = k2 := Option.some_injective _ (hm1.symm.trans hm2)
        subst hk12
        have hmem : name ∈ knot_types := List.getElem?_mem hi
        obtain ⟨hn1, hp1, _, _⟩ := mkKnot_fields name (pdOf name) k1 hm1
        refine ⟨rfl, ?_, ?_, ?_, ?_, ?_, ?_, ?_, ?_⟩
        · simpa [hn1] using hmem
        · simpa [hn1] using hmem
        · intro hcon
          rw [hn1] at hcon
          rw [hcon] at hmem
          exact hUn hmem
        · intro hcon
          rw [hn1] at hcon
          rw [hcon] at hmem
          exact hUn hmem
        · rw [hn1, hp1]
        · rw [hn1, hp1]
        · intro _
          exact ⟨rfl, rfl⟩
        · intro hcon
          cases hcon
      next =>
        cases h
  case isFalse heq =>
    have heq2 : equivalent = false := Bool.eq_false_iff.mpr heq
    subst heq2
    split at h
    next n1 n2 hi hj =>
      split at h
      · cases h
      case isFalse hij =>
        split at h
        next k1 k2 hm1 hm2 =>
          rcases h with ⟨⟩
          have hmem1 : n1 ∈ knot_types := List.getElem?_mem hi
          have hmem2 : n2 ∈ knot_types := List.getElem?_mem hj
          obtain ⟨hn1, hp1, _, _⟩ := mkKnot_fields n1 (pdOf n1) k1 hm1
          obtain ⟨hn2, hp2, _, _⟩ := mkKnot_fields n2 (pdOf n2) k2 hm2
          have hiL : i < knot_types.length :=
            (List.getElem?_eq_some.mp hi).1
          have hne : n1 ≠ n2 := by
            intro hcon
            apply hij
            refine List.getElem?_inj hiL hnd ?_
            rw [hi, hj, hcon]
          refine ⟨rfl, ?_, ?_, ?_, ?_, ?_, ?_, ?_, ?_⟩
          · simpa [hn1] using hmem1
          · simpa [hn2] using hmem2
          · intro hcon
            rw [hn1] at hcon
            rw [hcon] at hmem1
            exact hUn hmem1
          · intro hcon
            rw [hn2] at hcon
            rw [hcon] at hmem2
            exact hUn hmem2
          · rw [hn1, hp1]
          · rw [hn2, hp2]
          · intro hcon
            cases hcon
          · intro _
            rw [hn1, hn2]
            exact hne
        next =>
          cases h
    next =>
      cases h

/-- The connectivity graph of the Trefoil dataset entry, as computed by
`build_graph`. -/
def trefoilG : NXGraph :=
  ⟨[1, 2, 3, 4, 5, 6, 7, 8, 9, 10, 11, 12],
   [(1, 2), (2, 3), (3, 4), (4, 1), (1, 3), (2, 4),
    (5, 6), (6, 7), (7, 8), (8, 5), (5, 7), (6, 8),
    (9, 10), (10, 11), (11, 12), (12, 9), (9, 11), (10, 12)]⟩

/-- The Trefoil knot instance, as literally computed by `mkKnot`. -/
def trefoilK : Knot :=
  ⟨"Trefoil", [[1, 2, 3, 4], [5, 6, 7, 8], [9, 10, 11, 12]], 3, trefoilG,
    [(0, 3 / 2), (2 / 3, 3 / 2), (4 / 3, 3 / 2)], [1, 2, 3, 4, 1]⟩

theorem mkKnot_trefoil :
    mkKnot "Trefoil" (pdOf "Trefoil") = some trefoilK := by
  have hpd : pdOf "Trefoil" = [[1, 2, 3, 4], [5, 6, 7, 8], [9, 10, 11, 12]] :=
    by decide
  rw [hpd, mkKnot_eval "Trefoil" _ trefoilG [1, 2, 3, 4, 1]
    (by decide) (by decide)]
  simp [trefoilK, calculate_positions_three]

theorem generate_pair_trefoil :
    generate_knot_pair true 0 0 = some (trefoilK, trefoilK, true) := by
  have h0 : knot_types[0]? = some "Trefoil" := by decide
  unfold generate_knot_pair
  rw [if_pos rfl]
  simp only [h0, mkKnot_trefoil]

/-- Witness for C9 at the equivalent branch with the first candidate
(the Trefoil). -/
theorem generate_knot_pair_spec_witness :
    PairSpec true (trefoilK, trefoilK, true) :=
  generate_knot_pair_spec true 0 0 (trefoilK, trefoilK, true)
    generate_pair_trefoil

/-! ## C10: invariants of the shipped dataset -/

/-- Every per-crossing edge of a crossing of the PD code is in the built
edge list. -/
theorem mem_buildEdges_of_crossing (pd : List Crossing) (c : Crossing)
    (l : List (Nat × Nat)) (p : Nat × Nat) (hc : c ∈ pd)
    (hl : crossingEdges c = some l) (hp : p ∈ l) (es : List (Nat × Nat))
    (hes : buildEdges pd = some es) : p ∈ es := by
  induction pd generalizing es with
  | nil => cases hc
  | cons c2 pd ih =>
    simp only [buildEdges] at hes
    rcases hc2 : crossingEdges c2 with _ | l2 <;> rw [hc2] at hes
    · cases hes
    · rcases he : buildEdges pd with _ | rest <;> rw [he] at hes
      · cases hes
      · rcases hes with ⟨⟩
        rcases List.mem_cons.mp hc with rfl | hc
        · rw [hl] at hc2
          rcases hc2 with ⟨⟩
          exact List.mem_append.mpr (Or.inl hp)
        · exact List.mem_append.mpr (Or.inr (ih hc rest he))

/-- With four distinct identifiers per crossing, two arcs are adjacent in
the built graph exactly when they are distinct and share a crossing: each
crossing's six edges make its four arcs a complete graph, and no other
edges exist. -/
theorem hasEdge_iff_sameCrossing (pd : List Crossing)
    (h4 : ∀ c ∈ pd, c.length = 4) (hnd : ∀ c ∈ pd, c.Nodup)
    (g : NXGraph) (hg : build_graph pd = some g) :
    ∀ u v, g.hasEdge u v = true ↔ (u ≠ v ∧ ∃ c ∈ pd, u ∈ c ∧ v ∈ c) := by
  intro u v
  obtain ⟨_, hedges⟩ := build_graph_eq pd g hg
  constructor
  · intro h
    refine ⟨?_, ?_⟩
    · rcases (hasEdge_iff g u v).mp h with ⟨p, hp, hc⟩
      have hne := built_edges_no_loop pd h4 hnd g hg p hp
      rcases hc with ⟨h1, h2⟩ | ⟨h1, h2⟩
      · rw [← h1, ← h2]; exact hne
      · rw [← h1, ← h2]; exact fun hcon => hne hcon.symm
    · rcases (hasEdge_iff g u v).mp h with ⟨p, hp, hc⟩
      rcases buildEdges_mem pd g.edges hedges p hp with ⟨c, hcpd, l, hl, hpl⟩
      rcases crossingEdges_endpoints c l hl p hpl with ⟨he1, he2⟩
      rcases hc with ⟨h1, h2⟩ | ⟨h1, h2⟩
      · exact ⟨c, hcpd, h1 ▸ he1, h2 ▸ he2⟩
      · exact ⟨c, hcpd, h2 ▸ he2, h1 ▸ he1⟩
  · rintro ⟨huv, c, hcpd, hu, hv⟩
    rcases length_four_eq c (h4 c hcpd) with ⟨a, b, w, x, rfl⟩
    have hE : ∀ p ∈ [(a, b), (b, w), (w, x), (x, a), (a, w), (b, x)],
        p ∈ g.edges :=
      fun p hp => mem_buildEdges_of_crossing pd [a, b, w, x] _ p hcpd
        (crossingEdges_four a b w x) hp g.edges hedges
    have hab : (a, b) ∈ g.edges := hE (a, b) (by simp)
    have hbw : (b, w) ∈ g.edges := hE (b, w) (by simp)
    have hwx : (w, x) ∈ g.edges := hE (w, x) (by simp)
    have hxa : (x, a) ∈ g.edges := hE (x, a) (by simp)
    have haw : (a, w) ∈ g.edges := hE (a, w) (by simp)
    have hbx : (b, x) ∈ g.edges := hE (b, x) (by simp)
    simp only [List.mem_cons, List.not_mem_nil, or_false] at hu hv
    rcases hu with hu2 | hu2 | hu2 | hu2 <;>
      rcases hv with hv2 | hv2 | hv2 | hv2 <;>
      rw [hu2, hv2] <;>
      first
      | exact absurd (hu2.trans hv2.symm) huv
      | exact (hasEdge_iff g _ _).mpr ⟨(a, b), hab, Or.inl ⟨rfl, rfl⟩⟩
      | exact (hasEdge_iff g _ _).mpr ⟨(a, b), hab, Or.inr ⟨rfl, rfl⟩⟩
      | exact (hasEdge_iff g _ _).mpr ⟨(b, w), hbw, Or.inl ⟨rfl, rfl⟩⟩
      | exact (hasEdge_iff g _ _).mpr ⟨(b, w), hbw, Or.inr ⟨rfl, rfl⟩⟩
      | exact (hasEdge_iff g _ _).mpr ⟨(w, x), hwx, Or.inl ⟨rfl, rfl⟩⟩
      | exact (hasEdge_iff g _ _).mpr ⟨(w, x), hwx, Or.inr ⟨rfl, rfl⟩⟩
      | exact (hasEdge_iff g _ _).mpr ⟨(x, a), hxa, Or.inl ⟨rfl, rfl⟩⟩
      | exact (hasEdge_iff g _ _).mpr ⟨(x, a), hxa, Or.inr ⟨rfl, rfl⟩⟩
      | exact (hasEdge_iff g _ _).mpr ⟨(a, w), haw, Or.inl ⟨rfl, rfl⟩⟩
      | exact (hasEdge_iff g _ _).mpr ⟨(a, w), haw, Or.inr ⟨rfl, rfl⟩⟩
      | exact (hasEdge_iff g _ _).mpr ⟨(b, x), hbx, Or.inl ⟨rfl, rfl⟩⟩
      | exact (hasEdge_iff g _ _).mpr ⟨(b, x), hbx, Or.inr ⟨rfl, rfl⟩⟩

/-- A successful build equals its defaulted value. -/
theorem build_graph_gOf (pd : List Crossing)
    (h : (build_graph pd).isSome = true) :
    build_graph pd = some (gOf pd) := by
  unfold gOf
  rcases hb : build_graph pd with _ | g
  · rw [hb] at h
    cases h
  · rfl

/-- The property verified for C10 for one dataset entry `(name, pd)`:
crossing `i` is exactly the tuple `(4i+1, 4i+2, 4i+3, 4i+4)`, crossings
are pairwise disjoint, the graph builds, adjacency holds exactly inside a
shared crossing (so the graph is a disjoint union of complete 4-node
components), for two or more crossings the cut `{1,2,3,4}` witnesses
disconnectedness, the traced path is exactly the first crossing's four
arcs plus the closing repeat (five entries), the knot instance builds,
every position lookup along the path succeeds, and every node appears in
some crossing. -/
def DatasetEntrySpec (e : String × List Crossing) : Prop :=
  e.2 = (List.range e.2.length).map
    (fun i => [4 * i + 1, 4 * i + 2, 4 * i + 3, 4 * i + 4]) ∧
  List.Pairwise (fun c d => ∀ y ∈ c, y ∉ d) e.2 ∧
  (build_graph e.2).isSome = true ∧
  (∀ u v, (gOf e.2).hasEdge u v = true ↔
    (u ≠ v ∧ ∃ c ∈ e.2, u ∈ c ∧ v ∈ c)) ∧
  (2 ≤ e.2.length → (gOf e.2).disconnWitness [1, 2, 3, 4] = true) ∧
  e.2.headI.length = 4 ∧
  trace_path (gOf e.2) = some (e.2.headI ++ [e.2.headI.headI]) ∧
  (mkKnot e.1 e.2).isSome = true ∧
  (∀ arc ∈ (knotOf e.1 e.2).path,
    (get_arc_position (knotOf e.1 e.2) arc).isSome = true) ∧
  (∀ v ∈ (gOf e.2).nodes, ∃ c ∈ e.2, v ∈ c)

/-- C10. Every entry of the shipped dataset uses disjoint per-crossing
identifier quadruples, yields a disjoint union of complete 4-node
components (disconnected once there are at least two crossings), traces a
five-entry path over the start component, and never misses a position
lookup along the path. -/
theorem dataset_invariants : ∀ e ∈ KNOT_DEFINITIONS, DatasetEntrySpec e := by
  intro e he
  fin_cases he <;>
    refine ⟨by decide, by decide, by decide,
      hasEdge_iff_sameCrossing _ (by decide) (by decide) _
        (build_graph_gOf _ (by decide)),
      ?_, by decide, by decide, by decide, by decide, by decide⟩ <;>
    intro h2 <;>
    first
    | exact absurd h2 (by decide)
    | decide

/-- Witness for C10 at the first dataset entry (the Unknot). -/
theorem dataset_invariants_witness :
    DatasetEntrySpec ("Unknot", [[1, 2, 3, 4]]) :=
  dataset_invariants ("Unknot", [[1, 2, 3, 4]]) (by decide)

end KnotQuiz
